import Mathlib

/-!
Verification development for the wezback wallpaper rotator
(shallow embedding of `src/main.rs`).

Filesystem reads and writes are abstracted: every function below is the
pure content transformation performed by the corresponding Rust function,
with the file contents, the HOME value, the directory listing and the
random draw passed in as explicit arguments.
-/

/-- Boolean test that `p` is a leading segment of `l`
(model of Rust `str::starts_with` / `Path::strip_prefix` matching). -/
def isPre {α : Type} [DecidableEq α] : List α → List α → Bool
  | [], _ => true
  | _ :: _, [] => false
  | a :: as, b :: bs => if a = b then isPre as bs else false

/-- Replacement of the first occurrence of the character `pat`
(model of Rust `str::replacen(pat, to, 1)` with a one-character pattern,
which is the only way `main.rs` calls it). -/
def replacen1Char : List Char → Char → List Char → List Char
  | [], _, _ => []
  | c :: rest, pat, tgt => if c = pat then tgt ++ rest else c :: replacen1Char rest pat tgt

/-- Model of Rust `str::starts_with` on strings. -/
def startsWithS (p s : String) : Bool := isPre p.toList s.toList

/-- Model of `expand_tilde` (main.rs lines 18-30).  The HOME environment
variable is passed as the `home` argument; the `process::exit` path taken
when HOME is unset is outside this pure model. -/
def expand_tilde (home path : String) : String :=
  if startsWithS ("~") path then String.mk (replacen1Char path.toList '~' home.toList)
  else path

/-- Model of Rust `str::trim_matches('"')`: removes every leading and
every trailing double-quote character. -/
def trimQuotes (s : String) : String :=
  String.mk (((s.toList.dropWhile (fun c => c == '"')).reverse.dropWhile (fun c => c == '"')).reverse)

/-- Model of Rust `str::strip_prefix`: the remainder when `p` leads `s`. -/
def dropPre (p s : String) : Option String :=
  if isPre p.toList s.toList = true then some (String.mk (s.toList.drop p.toList.length))
  else none

/-- One iteration of the settings-parsing loop of `load_wezback_config`
(main.rs lines 40-48): state is the (images, wezlua, animations) triple of
optional values. -/
def loadStep (home : String) (st : Option String × Option String × Option String)
    (line : String) : Option String × Option String × Option String :=
  match dropPre ("images = ") line with
  | some v => (some (expand_tilde home (trimQuotes v)), st.2.1, st.2.2)
  | none =>
    match dropPre ("wezlua = ") line with
    | some v => (st.1, some (expand_tilde home (trimQuotes v)), st.2.2)
    | none =>
      match dropPre ("animations = ") line with
      | some v => (st.1, st.2.1, some (expand_tilde home (trimQuotes v)))
      | none => st

/-- Splitting a character list at every newline character; the result is
the nonempty list of newline-free segments. -/
def splitNl : List Char → List (List Char)
  | [] => [[]]
  | c :: rest =>
    if c = '\n' then [] :: splitNl rest
    else
      match splitNl rest with
      | [] => [[c]]
      | l :: ls => (c :: l) :: ls

/-- Removal of one trailing carriage-return character, if present. -/
def stripCr (l : List Char) : List Char :=
  if l.getLast? = some '\r' then l.dropLast else l

/-- Second phase of Rust `str::lines`: every segment that was terminated
by a newline loses one trailing carriage return, and the final segment is
dropped when it is empty (optional final line terminator). -/
def rustLinesAux : List (List Char) → List (List Char)
  | [] => []
  | [p] => if p = [] then [] else [p]
  | p :: q :: rest => stripCr p :: rustLinesAux (q :: rest)

/-- Model of Rust `str::lines` on character lists. -/
def rustLines (s : List Char) : List (List Char) := rustLinesAux (splitNl s)

/-- Model of Rust `str::lines` on strings. -/
def linesOf (s : String) : List String := (rustLines s.toList).map String.mk

/-- Joining character lists with a newline separator
(model of `Vec::join("\n")`). -/
def joinNl : List (List Char) → List Char
  | [] => []
  | [l] => l
  | l :: q :: rest => l ++ '\n' :: joinNl (q :: rest)

/-- Model of `Vec::join("\n")` on strings. -/
def joinLines (ls : List String) : String := String.mk (joinNl (ls.map String.toList))

/-- The replacement line built by `update_config_file` (main.rs line 98). -/
def conf_line (new_image : String) : String :=
  ("local image_path = home .. '/") ++ new_image ++ ("'")

/-- The matching test of `update_config_file` (main.rs line 107):
the line content with leading whitespace removed starts with the literal
text `local image_path`. -/
def isTargetLine (line : String) : Bool :=
  isPre (("local image_path").toList) (line.toList.dropWhile Char.isWhitespace)

/-- The per-line transformation of `update_config_file`
(main.rs lines 106-112). -/
def update_line (conf line : String) : String :=
  if isTargetLine line = true ∧ line ≠ conf then conf else line

/-- Model of `update_config_file` (main.rs lines 96-118) as the pure
transformation from the current contents of the target config file to the
contents written back. -/
def update_config_file (new_image contents : String) : String :=
  joinLines ((linesOf contents).map (update_line (conf_line new_image)))

/-- Model of `load_wezback_config` (main.rs lines 32-55) as a function of
the HOME value and the contents of the settings file.  The error strings
are the ones built by `Context::context` in the source, reproduced
verbatim (including the message of the `animations` branch on line 53,
which names 'images'). -/
def load_wezback_config (home contents : String) :
    Except String (String × String × String) :=
  let st := (linesOf contents).foldl (loadStep home) (none, none, none)
  match st.1 with
  | none => Except.error ("Missing 'images' key in config")
  | some images =>
    match st.2.1 with
    | none => Except.error ("Missing 'wezlua' key in config")
    | some wezlua =>
      match st.2.2 with
      | none => Except.error ("Missing 'images' key in config")
      | some animations => Except.ok (images, wezlua, animations)

/-- The fixed extension allow-list (main.rs lines 15-17). -/
def EXTENSIONS : List String :=
  [("jpeg"), ("jpg"), ("png"), ("gif"), ("bmp"), ("ico"), ("webp"), ("tiff"),
   ("pnm"), ("dds"), ("tga"), ("farbfeld")]

/-- Characters after the last dot of a character list, `none` when there
is no dot. -/
def afterLastDot : List Char → Option (List Char)
  | [] => none
  | c :: rest =>
    match afterLastDot rest with
    | some e => some e
    | none => if c = '.' then some rest else none

/-- Model of Rust `Path::extension` on a directory-entry file name: the
part after the last dot, provided that dot is not the leading character
(a name such as `.png` has no extension). -/
def extOf (name : String) : Option String :=
  match name.toList with
  | [] => none
  | _ :: rest => (afterLastDot rest).map String.mk

/-- Kind of a directory entry as reported by the filesystem. -/
inductive EntryKind where
  | file
  | dir
  | other
deriving DecidableEq

/-- A directory entry: its file name (one path component) and its kind.
`load_list_of_images` never consults the kind; it is carried so that
properties about regular files can be stated. -/
structure DirEntry where
  name : String
  kind : EntryKind
deriving DecidableEq

/-- Joining path components with `/`
(model of `Path::to_string_lossy` on a relative path). -/
def joinPath (comps : List String) : String := String.intercalate ("/") comps

/-- One iteration of the directory-scanning loop of `load_list_of_images`
(main.rs lines 70-87).  Paths are component lists: the scanned directory
`dir` is its canonicalized absolute component list, an entry's path is
`dir ++ [entry.name]`, and `Path::strip_prefix` is component-wise. -/
def scanStep (home dir : List String) (images : List String) (e : DirEntry) : List String :=
  match extOf e.name with
  | none => images
  | some ext =>
    if ext ∈ EXTENSIONS then
      if isPre home (dir ++ [e.name]) = true then
        images ++ [joinPath ((dir ++ [e.name]).drop home.length)]
      else images
    else images

/-- Model of `load_list_of_images` (main.rs lines 57-90) as a function of
the HOME component list, the canonicalized directory component list and
the listing the filesystem returns for it, in iteration order. -/
def load_list_of_images (home dir : List String) (entries : List DirEntry) : List String :=
  entries.foldl (scanStep home dir) []

/-- Model of `select_random_wallpaper` (main.rs lines 92-94).  The random
generator is abstracted as an arbitrary natural draw `k`; `choose` picks
the element at a uniformly drawn index below the length, modelled here as
`k % images.length`. -/
def select_random_wallpaper (images : List String) (k : Nat) : Option String :=
  images[k % images.length]?

theorem toList_mk (l : List Char) : (String.mk l).toList = l := rfl

theorem mk_toList (s : String) : String.mk s.toList = s := rfl

theorem isPre_iff_append {α : Type} [DecidableEq α] (as bs : List α) :
    isPre as bs = true ↔ ∃ t, bs = as ++ t := by
  induction as generalizing bs with
  | nil => simp [isPre]
  | cons a as ih =>
    cases bs with
    | nil => simp [isPre]
    | cons b bs =>
      by_cases h : a = b
      · subst h
        simp [isPre, ih]
      · simp only [isPre, if_neg h, List.cons_append, List.cons.injEq]
        constructor
        · intro hf; exact absurd hf (by simp)
        · rintro ⟨t, hb, -⟩; exact absurd hb.symm h

/-- C4: for every path starting with `~` (and the home variable set, passed
as `home`), `expand_tilde` replaces exactly the first occurrence of `~` with
the home value and leaves the rest of the string untouched; for every path
not starting with `~`, it is the identity. -/
theorem expand_tilde_spec (home path : String) :
    (startsWithS ("~") path = true →
      (expand_tilde home path).toList = home.toList ++ path.toList.drop 1) ∧
    (startsWithS ("~") path = false → expand_tilde home path = path) := by
  constructor
  · intro h
    have h' : isPre (("~").toList) path.toList = true := h
    rw [show ("~").toList = ['~'] from rfl] at h'
    cases hp : path.toList with
    | nil => rw [hp] at h'; simp [isPre] at h'
    | cons c t =>
      rw [hp] at h'
      simp only [isPre] at h'
      by_cases hc : '~' = c
      · subst hc
        unfold expand_tilde
        rw [if_pos h, toList_mk, hp]
        simp [replacen1Char]
      · rw [if_neg hc] at h'
        exact absurd h' (by simp)
  · intro h
    unfold expand_tilde
    rw [h]
    simp

theorem expand_tilde_spec_witness :
    (expand_tilde ("/h") ("~/x")).toList = ("/h").toList ++ ("~/x").toList.drop 1 :=
  (expand_tilde_spec ("/h") ("~/x")).1 (by decide)

/-- C7: the selector returns `none` exactly on the empty candidate list, and
any returned element is a member of the input list (random draw abstracted
as the natural number `k`). -/
theorem select_random_wallpaper_spec (images : List String) (k : Nat) :
    (select_random_wallpaper images k = none ↔ images = []) ∧
    (∀ x, select_random_wallpaper images k = some x → x ∈ images) := by
  constructor
  · constructor
    · intro h
      cases images with
      | nil => rfl
      | cons a l =>
        have hlt : k % (a :: l).length < (a :: l).length :=
          Nat.mod_lt _ (by simp)
        rw [select_random_wallpaper, List.getElem?_eq_getElem hlt] at h
        simp at h
    · intro h
      subst h
      rfl
  · intro x h
    rw [select_random_wallpaper] at h
    obtain ⟨hlt, hx⟩ := List.getElem?_eq_some.mp h
    exact hx ▸ List.getElem_mem _

/-- C10: a settings line that does not begin with one of the three exact
literal key markers `images = `, `wezlua = `, `animations = ` is silently
ignored: the parsing state is unchanged. -/
theorem loadStep_ignores_unrecognized_lines (home : String)
    (st : Option String × Option String × Option String) (line : String)
    (h1 : startsWithS ("images = ") line = false)
    (h2 : startsWithS ("wezlua = ") line = false)
    (h3 : startsWithS ("animations = ") line = false) :
    loadStep home st line = st := by
  rw [startsWithS] at h1 h2 h3
  simp at h1 h2 h3
  simp [loadStep, dropPre, h1, h2, h3]

theorem loadStep_ignores_unrecognized_lines_witness :
    loadStep ("/h") (none, none, none) ("  images = \"x\"") = (none, none, none) :=
  loadStep_ignores_unrecognized_lines ("/h") (none, none, none) ("  images = \"x\"")
    (by decide) (by decide) (by decide)

/-- C3: on a settings file missing only the `wezlua` key, loading fails with
the error naming `wezlua`; but on a settings file missing only the
`animations` key, the code fails with the error message naming `images`
(the copy-paste slip on main.rs line 53), not `animations`. -/
theorem load_wezback_config_missing_key_messages :
    load_wezback_config ("/h") ("images = \"A\"\nanimations = \"C\"") =
      Except.error ("Missing 'wezlua' key in config") ∧
    load_wezback_config ("/h") ("images = \"A\"\nwezlua = \"B\"") =
      Except.error ("Missing 'images' key in config") :=
  ⟨rfl, rfl⟩

theorem scan_foldl_eq (home dir : List String) (entries : List DirEntry)
    (acc : List String) :
    entries.foldl (scanStep home dir) acc =
      acc ++ entries.filterMap (fun e =>
        match extOf e.name with
        | none => none
        | some ext =>
          if ext ∈ EXTENSIONS ∧ isPre home (dir ++ [e.name]) = true then
            some (joinPath ((dir ++ [e.name]).drop home.length))
          else none) := by
  induction entries generalizing acc with
  | nil => simp
  | cons e es ih =>
    simp only [List.foldl_cons, List.filterMap_cons]
    rw [ih]
    cases hx : extOf e.name with
    | none => simp [scanStep, hx]
    | some ext =>
      by_cases hm : ext ∈ EXTENSIONS
      · by_cases hp : isPre home (dir ++ [e.name]) = true
        · simp [scanStep, hx, hm, hp]
        · simp [scanStep, hx, hm, hp]
      · simp [scanStep, hx, hm]

/-- C5: the directory scan keeps exactly the entries whose (case-sensitive)
extension is a member of the fixed allow-list and whose path lies under the
home directory, each returned as its path relative to the home directory in
iteration order; entries without an extension, with a non-member extension,
or outside the home directory contribute nothing. -/
theorem load_list_of_images_closed_form (home dir : List String)
    (entries : List DirEntry) :
    load_list_of_images home dir entries =
      entries.filterMap (fun e =>
        match extOf e.name with
        | none => none
        | some ext =>
          if ext ∈ EXTENSIONS ∧ isPre home (dir ++ [e.name]) = true then
            some (joinPath ((dir ++ [e.name]).drop home.length))
          else none) := by
  rw [load_list_of_images, scan_foldl_eq, List.nil_append]

/-- C8 counterexample: a directory entry named `d.png` that is itself a
directory (not a regular file) passes the extension filter of
`load_list_of_images`, so the catalog contains a path that re-prepends to
an entry that is not a regular file: the claim as stated is false. -/
theorem catalog_regular_file_counterexample :
    ¬ (∀ p ∈ load_list_of_images [("home"), ("u")] [("home"), ("u"), ("pics")]
          [DirEntry.mk ("d.png") EntryKind.dir],
        ∃ e ∈ [DirEntry.mk ("d.png") EntryKind.dir], ∃ rel : List String,
          p = joinPath rel ∧
          [("home"), ("u")] ++ rel = [("home"), ("u"), ("pics")] ++ [e.name] ∧
          e.kind = EntryKind.file) := by
  intro h
  obtain ⟨e, he, rel, hp, hh, hk⟩ := h ("pics/d.png") (by decide)
  have he' : e = DirEntry.mk ("d.png") EntryKind.dir := by simpa using he
  rw [he'] at hk
  exact absurd hk (by decide)

/-- C8 amended: every path in the returned catalog, with the home directory
re-prepended, is the path of an entry that existed in the scanned directory
at catalog-build time and has an allow-listed extension — but of arbitrary
kind: the code never checks that the entry is a regular file. -/
theorem catalog_entry_existed_amended (home dir : List String)
    (entries : List DirEntry) :
    ∀ p ∈ load_list_of_images home dir entries,
      ∃ e ∈ entries, ∃ rel : List String,
        p = joinPath rel ∧ home ++ rel = dir ++ [e.name] ∧
        ∃ ext, extOf e.name = some ext ∧ ext ∈ EXTENSIONS := by
  intro p hp
  rw [load_list_of_images, scan_foldl_eq, List.nil_append] at hp
  obtain ⟨e, he, hfe⟩ := List.mem_filterMap.mp hp
  refine ⟨e, he, ?_⟩
  cases hx : extOf e.name with
  | none => rw [hx] at hfe; simp at hfe
  | some ext =>
    rw [hx] at hfe
    dsimp only at hfe
    by_cases hcond : ext ∈ EXTENSIONS ∧ isPre home (dir ++ [e.name]) = true
    · rw [if_pos hcond] at hfe
      obtain ⟨t, ht⟩ := (isPre_iff_append home (dir ++ [e.name])).mp hcond.2
      refine ⟨(dir ++ [e.name]).drop home.length, ?_, ?_, ext, rfl, hcond.1⟩
      · exact (Option.some.injEq _ _ ▸ hfe).symm
      · rw [ht, List.drop_left]
    · rw [if_neg hcond] at hfe
      simp at hfe

theorem catalog_entry_existed_amended_witness :
    ∃ e ∈ [DirEntry.mk ("a.png") EntryKind.file], ∃ rel : List String,
      ("pics/a.png") = joinPath rel ∧
      [("home"), ("u")] ++ rel = [("home"), ("u"), ("pics")] ++ [e.name] ∧
      ∃ ext, extOf e.name = some ext ∧ ext ∈ EXTENSIONS :=
  catalog_entry_existed_amended [("home"), ("u")] [("home"), ("u"), ("pics")]
    [DirEntry.mk ("a.png") EntryKind.file] ("pics/a.png") (by decide)

theorem dropPre_some_isPre {p s v : String} (h : dropPre p s = some v) :
    isPre p.toList s.toList = true := by
  by_cases hp : isPre p.toList s.toList = true
  · exact hp
  · rw [dropPre, if_neg hp] at h
    exact absurd h (by simp)

theorem dropPre_none_of_isPre_false {p s : String}
    (h : isPre p.toList s.toList = false) : dropPre p s = none := by
  rw [dropPre, if_neg (fun hc : isPre p.toList s.toList = true => by
    rw [hc] at h; exact Bool.noConfusion h)]

theorem isPre_head_ne {a b : Char} {as bs cs : List Char} (hab : a ≠ b)
    (h : isPre (a :: as) cs = true) : isPre (b :: bs) cs = false := by
  cases cs with
  | nil => simp [isPre] at h
  | cons c t =>
    simp only [isPre] at h ⊢
    by_cases hac : a = c
    · subst hac
      rw [if_neg (fun hbc : b = a => hab hbc.symm)]
    · rw [if_neg hac] at h
      exact absurd h (by simp)

theorem wez_excl_images {l v : String} (h : dropPre ("wezlua = ") l = some v) :
    dropPre ("images = ") l = none := by
  have h1 := dropPre_some_isPre h
  rw [show ("wezlua = ").toList = 'w' :: ("ezlua = ").toList by decide] at h1
  apply dropPre_none_of_isPre_false
  rw [show ("images = ").toList = 'i' :: ("mages = ").toList by decide]
  exact isPre_head_ne (by decide) h1

theorem anim_excl_images {l v : String} (h : dropPre ("animations = ") l = some v) :
    dropPre ("images = ") l = none := by
  have h1 := dropPre_some_isPre h
  rw [show ("animations = ").toList = 'a' :: ("nimations = ").toList by decide] at h1
  apply dropPre_none_of_isPre_false
  rw [show ("images = ").toList = 'i' :: ("mages = ").toList by decide]
  exact isPre_head_ne (by decide) h1

theorem anim_excl_wez {l v : String} (h : dropPre ("animations = ") l = some v) :
    dropPre ("wezlua = ") l = none := by
  have h1 := dropPre_some_isPre h
  rw [show ("animations = ").toList = 'a' :: ("nimations = ").toList by decide] at h1
  apply dropPre_none_of_isPre_false
  rw [show ("wezlua = ").toList = 'w' :: ("ezlua = ").toList by decide]
  exact isPre_head_ne (by decide) h1

theorem loadStep_fst_set {home : String} {st : Option String × Option String × Option String}
    {l v : String} (h : dropPre ("images = ") l = some v) :
    (loadStep home st l).1 = some (expand_tilde home (trimQuotes v)) := by
  simp [loadStep, h]

theorem loadStep_fst_keep {home : String} {st : Option String × Option String × Option String}
    {l : String} (h : dropPre ("images = ") l = none) :
    (loadStep home st l).1 = st.1 := by
  simp only [loadStep, h]
  cases h2 : dropPre ("wezlua = ") l
  · simp only [h2]
    cases h3 : dropPre ("animations = ") l <;> simp
  · simp

theorem loadStep_snd1_set {home : String} {st : Option String × Option String × Option String}
    {l v : String} (h : dropPre ("wezlua = ") l = some v) :
    (loadStep home st l).2.1 = some (expand_tilde home (trimQuotes v)) := by
  simp [loadStep, wez_excl_images h, h]

theorem loadStep_snd1_keep {home : String} {st : Option String × Option String × Option String}
    {l : String} (h : dropPre ("wezlua = ") l = none) :
    (loadStep home st l).2.1 = st.2.1 := by
  cases h1 : dropPre ("images = ") l
  · simp only [loadStep, h1, h]
    cases h3 : dropPre ("animations = ") l <;> simp
  · simp [loadStep, h1]

theorem loadStep_snd2_set {home : String} {st : Option String × Option String × Option String}
    {l v : String} (h : dropPre ("animations = ") l = some v) :
    (loadStep home st l).2.2 = some (expand_tilde home (trimQuotes v)) := by
  simp [loadStep, anim_excl_images h, anim_excl_wez h, h]

theorem loadStep_snd2_keep {home : String} {st : Option String × Option String × Option String}
    {l : String} (h : dropPre ("animations = ") l = none) :
    (loadStep home st l).2.2 = st.2.2 := by
  cases h1 : dropPre ("images = ") l
  · cases h2 : dropPre ("wezlua = ") l
    · simp [loadStep, h1, h2, h]
    · simp [loadStep, h1, h2]
  · simp [loadStep, h1]

theorem fold_images (home : String) (ls : List String)
    (st : Option String × Option String × Option String) :
    (ls.foldl (loadStep home) st).1 =
      match (ls.filterMap (dropPre ("images = "))).getLast? with
      | some v => some (expand_tilde home (trimQuotes v))
      | none => st.1 := by
  induction ls generalizing st with
  | nil => simp
  | cons l ls ih =>
    rw [List.foldl_cons, ih, List.filterMap_cons]
    cases hl : dropPre ("images = ") l with
    | some v =>
      cases hfm : ls.filterMap (dropPre ("images = ")) with
      | nil => simp [hfm, loadStep_fst_set hl]
      | cons r rs =>
        dsimp only
        rw [List.getLast?_cons_cons]
        cases hg : (r :: rs).getLast? with
        | none => exact absurd hg (by simp)
        | some w => rfl
    | none =>
      cases hfm : ls.filterMap (dropPre ("images = ")) with
      | nil => simp [hfm, loadStep_fst_keep hl]
      | cons r rs =>
        dsimp only
        cases hg : (r :: rs).getLast? with
        | none => exact absurd hg (by simp)
        | some w => rfl

theorem fold_wezlua (home : String) (ls : List String)
    (st : Option String × Option String × Option String) :
    (ls.foldl (loadStep home) st).2.1 =
      match (ls.filterMap (dropPre ("wezlua = "))).getLast? with
      | some v => some (expand_tilde home (trimQuotes v))
      | none => st.2.1 := by
  induction ls generalizing st with
  | nil => simp
  | cons l ls ih =>
    rw [List.foldl_cons, ih, List.filterMap_cons]
    cases hl : dropPre ("wezlua = ") l with
    | some v =>
      cases hfm : ls.filterMap (dropPre ("wezlua = ")) with
      | nil => simp [hfm, loadStep_snd1_set hl]
      | cons r rs =>
        dsimp only
        rw [List.getLast?_cons_cons]
        cases hg : (r :: rs).getLast? with
        | none => exact absurd hg (by simp)
        | some w => rfl
    | none =>
      cases hfm : ls.filterMap (dropPre ("wezlua = ")) with
      | nil => simp [hfm, loadStep_snd1_keep hl]
      | cons r rs =>
        dsimp only
        cases hg : (r :: rs).getLast? with
        | none => exact absurd hg (by simp)
        | some w => rfl

theorem fold_animations (home : String) (ls : List String)
    (st : Option String × Option String × Option String) :
    (ls.foldl (loadStep home) st).2.2 =
      match (ls.filterMap (dropPre ("animations = "))).getLast? with
      | some v => some (expand_tilde home (trimQuotes v))
      | none => st.2.2 := by
  induction ls generalizing st with
  | nil => simp
  | cons l ls ih =>
    rw [List.foldl_cons, ih, List.filterMap_cons]
    cases hl : dropPre ("animations = ") l with
    | some v =>
      cases hfm : ls.filterMap (dropPre ("animations = ")) with
      | nil => simp [hfm, loadStep_snd2_set hl]
      | cons r rs =>
        dsimp only
        rw [List.getLast?_cons_cons]
        cases hg : (r :: rs).getLast? with
        | none => exact absurd hg (by simp)
        | some w => rfl
    | none =>
      cases hfm : ls.filterMap (dropPre ("animations = ")) with
      | nil => simp [hfm, loadStep_snd2_keep hl]
      | cons r rs =>
        dsimp only
        cases hg : (r :: rs).getLast? with
        | none => exact absurd hg (by simp)
        | some w => rfl

/-- C9: for each recognized key, the value the settings parser keeps is the
one from the last line of the file matching that key's exact marker; earlier
occurrences are overwritten (and absence of any match leaves the key
unset). -/
theorem load_last_occurrence_wins (home contents : String) :
    ((linesOf contents).foldl (loadStep home) (none, none, none)).1 =
      (match ((linesOf contents).filterMap (dropPre ("images = "))).getLast? with
       | some v => some (expand_tilde home (trimQuotes v))
       | none => none) ∧
    ((linesOf contents).foldl (loadStep home) (none, none, none)).2.1 =
      (match ((linesOf contents).filterMap (dropPre ("wezlua = "))).getLast? with
       | some v => some (expand_tilde home (trimQuotes v))
       | none => none) ∧
    ((linesOf contents).foldl (loadStep home) (none, none, none)).2.2 =
      (match ((linesOf contents).filterMap (dropPre ("animations = "))).getLast? with
       | some v => some (expand_tilde home (trimQuotes v))
       | none => none) :=
  ⟨fold_images home (linesOf contents) (none, none, none),
   fold_wezlua home (linesOf contents) (none, none, none),
   fold_animations home (linesOf contents) (none, none, none)⟩

theorem update_line_of_not_target {conf line : String}
    (h : isTargetLine line = false) : update_line conf line = line := by
  rw [update_line, if_neg]
  intro hc
  rw [hc.1] at h
  exact Bool.noConfusion h

/-- C1: the patch rewrites only lines whose content with leading whitespace
stripped starts with `local image_path`: the output line list has the same
length, every non-matching line passes through at its position with its
content unchanged, and a config with zero matching lines keeps its line
content list unchanged (output is exactly the rejoining of the original
lines: a no-op, not an error). -/
theorem update_config_file_frame (c contents : String) :
    (((linesOf contents).map (update_line (conf_line c))).length =
      (linesOf contents).length) ∧
    (∀ (i : Nat) (line : String), (linesOf contents)[i]? = some line → isTargetLine line = false →
      ((linesOf contents).map (update_line (conf_line c)))[i]? = some line) ∧
    ((∀ l ∈ linesOf contents, isTargetLine l = false) →
      (linesOf contents).map (update_line (conf_line c)) = linesOf contents ∧
      update_config_file c contents = joinLines (linesOf contents)) := by
  refine ⟨List.length_map _ _, ?_, ?_⟩
  · intro i line hi ht
    rw [List.getElem?_map, hi, Option.map_some']
    rw [update_line_of_not_target ht]
  · intro h
    have hmap : (linesOf contents).map (update_line (conf_line c)) = linesOf contents := by
      rw [show linesOf contents = (linesOf contents).map id from (List.map_id _).symm]
      rw [List.map_map]
      exact List.map_congr_left (fun a ha => update_line_of_not_target (h a ha))
    exact ⟨hmap, by rw [update_config_file, hmap]⟩

theorem update_config_file_frame_witness :
    ((linesOf ("x\ny")).map (update_line (conf_line ("a"))) = linesOf ("x\ny")) ∧
    update_config_file ("a") ("x\ny") = joinLines (linesOf ("x\ny")) :=
  (update_config_file_frame ("a") ("x\ny")).2.2 (by decide)

/-- C2: the patch replaces each matching line with the exact text
`local image_path = home .. '/<candidate>'`, the candidate embedded
verbatim and single-quoted; every matching line of the file is rewritten to
that same identical replacement line. -/
theorem update_config_file_rewrites_matches (c contents : String) (i : Nat)
    (line : String) (hi : (linesOf contents)[i]? = some line)
    (ht : isTargetLine line = true) :
    ((linesOf contents).map (update_line (conf_line c)))[i]? =
      some (("local image_path = home .. '/") ++ c ++ ("'")) := by
  rw [List.getElem?_map, hi, Option.map_some']
  rw [update_line]
  by_cases he : line = conf_line c
  · rw [if_neg (fun hc => hc.2 he)]
    rw [he]
    rfl
  · rw [if_pos ⟨ht, he⟩]
    rfl

theorem update_config_file_rewrites_matches_witness :
    ((linesOf ("local image_path = old\nother")).map
        (update_line (conf_line ("p"))))[0]? =
      some (("local image_path = home .. '/") ++ ("p") ++ ("'")) :=
  update_config_file_rewrites_matches ("p") ("local image_path = old\nother") 0
    ("local image_path = old") (by decide) (by decide)

theorem splitNl_ne_nil (s : List Char) : splitNl s ≠ [] := by
  cases s with
  | nil => simp [splitNl]
  | cons c rest =>
    by_cases h : c = '\n'
    · simp [splitNl, h]
    · simp only [splitNl, if_neg h]
      cases splitNl rest <;> simp

theorem splitNl_chars (s : List Char) :
    ∀ p ∈ splitNl s, ∀ ch ∈ p, ch ≠ '\n' ∧ ch ∈ s := by
  induction s with
  | nil =>
    intro p hp ch hch
    simp [splitNl] at hp
    subst hp
    simp at hch
  | cons c rest ih =>
    intro p hp ch hch
    by_cases h : c = '\n'
    · rw [show splitNl (c :: rest) = [] :: splitNl rest by simp [splitNl, h]] at hp
      rcases List.mem_cons.mp hp with h1 | h1
      · subst h1; simp at hch
      · obtain ⟨hne, hmem⟩ := ih p h1 ch hch
        exact ⟨hne, List.mem_cons_of_mem _ hmem⟩
    · cases hsr : splitNl rest with
      | nil => exact absurd hsr (splitNl_ne_nil rest)
      | cons l ls =>
        rw [show splitNl (c :: rest) = (c :: l) :: ls by
          simp only [splitNl, if_neg h, hsr]] at hp
        rcases List.mem_cons.mp hp with h1 | h1
        · subst h1
          rcases List.mem_cons.mp hch with h2 | h2
          · subst h2
            exact ⟨h, List.mem_cons_self _ _⟩
          · obtain ⟨hne, hmem⟩ := ih l (by rw [hsr]; exact List.mem_cons_self _ _) ch h2
            exact ⟨hne, List.mem_cons_of_mem _ hmem⟩
        · obtain ⟨hne, hmem⟩ := ih p (by rw [hsr]; exact List.mem_cons_of_mem _ h1) ch hch
          exact ⟨hne, List.mem_cons_of_mem _ hmem⟩

theorem splitNl_eq_single {m : List Char} (h : '\n' ∉ m) : splitNl m = [m] := by
  induction m with
  | nil => rfl
  | cons c rest ih =>
    have hc : ¬ c = '\n' := fun hh => h (hh ▸ List.mem_cons_self _ _)
    have hr : '\n' ∉ rest := fun hh => h (List.mem_cons_of_mem _ hh)
    simp [splitNl, hc, ih hr]

theorem splitNl_append {m t : List Char} (h : '\n' ∉ m) :
    splitNl (m ++ '\n' :: t) = m :: splitNl t := by
  induction m with
  | nil => simp [splitNl]
  | cons c rest ih =>
    have hc : ¬ c = '\n' := fun hh => h (hh ▸ List.mem_cons_self _ _)
    have hr : '\n' ∉ rest := fun hh => h (List.mem_cons_of_mem _ hh)
    simp only [List.cons_append, splitNl, if_neg hc]
    rw [show rest.append ('\n' :: t) = rest ++ '\n' :: t from rfl, ih hr]

theorem splitNl_joinNl {ms : List (List Char)} (hms : ms ≠ [])
    (h : ∀ m ∈ ms, '\n' ∉ m) : splitNl (joinNl ms) = ms := by
  induction ms with
  | nil => exact absurd rfl hms
  | cons m ms ih =>
    cases ms with
    | nil => exact splitNl_eq_single (h m (List.mem_cons_self _ _))
    | cons m2 rest =>
      rw [show joinNl (m :: m2 :: rest) = m ++ '\n' :: joinNl (m2 :: rest) from rfl]
      rw [splitNl_append (h m (List.mem_cons_self _ _))]
      rw [ih (by simp) (fun x hx => h x (List.mem_cons_of_mem _ hx))]

theorem rustLinesAux_fixed {ms : List (List Char)}
    (h1 : ∀ p ∈ ms, p.getLast? ≠ some '\r')
    (h2 : ms.getLast? ≠ some []) : rustLinesAux ms = ms := by
  induction ms with
  | nil => rfl
  | cons p ms ih =>
    cases ms with
    | nil =>
      have hp : p ≠ [] := by
        intro hp
        exact h2 (by rw [hp]; rfl)
      simp [rustLinesAux, hp]
    | cons q rest =>
      have hp : stripCr p = p := by
        rw [stripCr, if_neg (h1 p (List.mem_cons_self _ _))]
      rw [show rustLinesAux (p :: q :: rest) = stripCr p :: rustLinesAux (q :: rest)
        from rfl, hp]
      rw [ih (fun x hx => h1 x (List.mem_cons_of_mem _ hx))
        (by rw [show (q :: rest).getLast? = (p :: q :: rest).getLast? from
          (show (p :: q :: rest).getLast? = (q :: rest).getLast? from
            List.getLast?_cons_cons).symm]; exact h2)]

theorem stripCr_subset {p : List Char} : ∀ ch ∈ stripCr p, ch ∈ p := by
  intro ch h
  rw [stripCr] at h
  by_cases hl : p.getLast? = some '\r'
  · rw [if_pos hl] at h
    exact (List.dropLast_sublist p).subset h
  · rw [if_neg hl] at h
    exact h

theorem rustLinesAux_mem {ps : List (List Char)} :
    ∀ p ∈ rustLinesAux ps, ∃ q ∈ ps, p = q ∨ p = stripCr q := by
  induction ps with
  | nil => simp [rustLinesAux]
  | cons a ps ih =>
    cases ps with
    | nil =>
      intro p hp
      by_cases ha : a = []
      · simp [rustLinesAux, ha] at hp
      · simp only [rustLinesAux, if_neg ha, List.mem_singleton] at hp
        exact ⟨a, List.mem_cons_self _ _, Or.inl hp⟩
    | cons b rest =>
      intro p hp
      rw [show rustLinesAux (a :: b :: rest) = stripCr a :: rustLinesAux (b :: rest)
        from rfl] at hp
      rcases List.mem_cons.mp hp with h | h
      · exact ⟨a, List.mem_cons_self _ _, Or.inr h⟩
      · obtain ⟨q, hq, hh⟩ := ih p h
        exact ⟨q, List.mem_cons_of_mem _ hq, hh⟩

theorem linesOf_chars (s : String) :
    ∀ l ∈ linesOf s, ∀ ch ∈ l.toList, ch ≠ '\n' ∧ ch ∈ s.toList := by
  intro l hl ch hch
  rw [linesOf, rustLines] at hl
  obtain ⟨p, hp, hlp⟩ := List.mem_map.mp hl
  obtain ⟨q, hq, hpq⟩ := rustLinesAux_mem p hp
  have hchp : ch ∈ p := by
    rw [← hlp] at hch
    exact hch
  have hchq : ch ∈ q := by
    rcases hpq with h | h
    · exact h ▸ hchp
    · exact stripCr_subset ch (h ▸ hchp)
  exact splitNl_chars s.toList q hq ch hchq

theorem conf_line_toList (c : String) :
    (conf_line c).toList =
      ("local image_path = home .. '/").toList ++ c.toList ++ [('\'' : Char)] := rfl

theorem conf_line_no_nl {c : String} (hc : ('\n' : Char) ∉ c.toList) :
    ('\n' : Char) ∉ (conf_line c).toList := by
  rw [conf_line_toList]
  intro h
  rcases List.mem_append.mp h with h1 | h1
  · rcases List.mem_append.mp h1 with h2 | h2
    · exact absurd h2 (by decide)
    · exact hc h2
  · exact absurd h1 (by decide)

theorem conf_line_last (c : String) :
    (conf_line c).toList.getLast? = some '\'' := by
  rw [conf_line_toList, List.getLast?_concat]

theorem conf_line_ne_empty (c : String) : conf_line c ≠ ("") := by
  intro h
  have : (conf_line c).toList = [] := by rw [h]; rfl
  rw [conf_line_toList] at this
  simp at this

theorem update_line_idem (conf l : String) :
    update_line conf (update_line conf l) = update_line conf l := by
  by_cases h : isTargetLine l = true ∧ l ≠ conf
  · have hl : update_line conf l = conf := by rw [update_line, if_pos h]
    rw [hl, update_line, if_neg (fun hc => hc.2 rfl)]
  · have hl : update_line conf l = l := by rw [update_line, if_neg h]
    rw [hl, update_line, if_neg h]

theorem myGetLast?_map {α β : Type} (f : α → β) (l : List α) :
    (l.map f).getLast? = l.getLast?.map f := by
  induction l with
  | nil => rfl
  | cons a l ih =>
    cases l with
    | nil => rfl
    | cons b t =>
      rw [List.map_cons, List.map_cons, List.getLast?_cons_cons,
        List.getLast?_cons_cons, ← List.map_cons]
      exact ih

theorem mem_of_myGetLast? {α : Type} {l : List α} {a : α}
    (h : l.getLast? = some a) : a ∈ l := by
  have hm : a ∈ l.getLast? := h
  obtain ⟨h0, heq⟩ := List.mem_getLast?_eq_getLast hm
  exact heq ▸ List.getLast_mem h0

/-- C6 counterexample: on the config content `x` followed by a trailing
empty line, the first application of the patch drops the final line
terminator, so a second application with the same candidate produces yet
another content: the patch is not idempotent as stated. -/
theorem update_config_file_not_idempotent :
    update_config_file ("a") (update_config_file ("a") ("x\n\n")) ≠
      update_config_file ("a") ("x\n\n") := by decide

/-- C6 amended: applying the patch a second time with the same candidate
leaves the file content unchanged, provided the original content contains
no carriage-return character, its last line is nonempty (the content does
not end in two consecutive line terminators), and the candidate path
contains no newline; without those provisos the newline normalization of
the rejoining step can change the content again on the second
application. -/
theorem update_config_file_idempotent_amended (c contents : String)
    (hcr : ('\r' : Char) ∉ contents.toList)
    (hcn : ('\n' : Char) ∉ c.toList)
    (hlast : (linesOf contents).getLast? ≠ some ("")) :
    update_config_file c (update_config_file c contents) =
      update_config_file c contents := by
  set ms := (linesOf contents).map (update_line (conf_line c)) with hms
  have hmem : ∀ m ∈ ms, m = conf_line c ∨ m ∈ linesOf contents := by
    intro m hm
    rw [hms] at hm
    obtain ⟨l, hl, hlm⟩ := List.mem_map.mp hm
    rw [← hlm, update_line]
    by_cases hcond : isTargetLine l = true ∧ l ≠ conf_line c
    · rw [if_pos hcond]
      exact Or.inl rfl
    · rw [if_neg hcond]
      exact Or.inr hl
  have h_nl : ∀ m ∈ ms, ('\n' : Char) ∉ m.toList := by
    intro m hm
    rcases hmem m hm with hmc | hmls
    · rw [hmc]
      exact conf_line_no_nl hcn
    · intro hch
      exact (linesOf_chars contents m hmls '\n' hch).1 rfl
  have h_cr : ∀ m ∈ ms, m.toList.getLast? ≠ some '\r' := by
    intro m hm
    rcases hmem m hm with hmc | hmls
    · rw [hmc, conf_line_last]
      simp
    · intro h
      exact hcr ((linesOf_chars contents m hmls '\r' (mem_of_myGetLast? h)).2)
  have h_ne : ms.getLast? ≠ some ("") := by
    rw [hms, myGetLast?_map]
    cases hg : (linesOf contents).getLast? with
    | none => simp
    | some llast =>
      simp only [Option.map_some']
      intro h
      have h' : update_line (conf_line c) llast = ("") := Option.some.inj h
      rw [update_line] at h'
      by_cases hcond : isTargetLine llast = true ∧ llast ≠ conf_line c
      · rw [if_pos hcond] at h'
        exact conf_line_ne_empty c h'
      · rw [if_neg hcond] at h'
        exact hlast (by rw [hg, h'])
  have hround : linesOf (joinLines ms) = ms := by
    cases hms0 : ms with
    | nil => rfl
    | cons m0 mrest =>
      rw [← hms0]
      rw [linesOf, joinLines, toList_mk, rustLines]
      rw [splitNl_joinNl (by rw [hms0]; simp)
        (fun mc hmc => by
          obtain ⟨m, hm, hmm⟩ := List.mem_map.mp hmc
          rw [← hmm]
          exact h_nl m hm)]
      rw [rustLinesAux_fixed
        (fun p hp => by
          obtain ⟨m, hm, hmm⟩ := List.mem_map.mp hp
          rw [← hmm]
          exact h_cr m hm)
        (by
          rw [myGetLast?_map]
          cases hg : ms.getLast? with
          | none => simp
          | some mlast =>
            simp only [Option.map_some']
            intro hsome
            have hml : mlast = ("") := by
              rw [← mk_toList mlast, Option.some.inj hsome]
            exact h_ne (by rw [hg, hml]))]
      rw [List.map_map]
      have hid : ∀ x ∈ ms, (String.mk ∘ String.toList) x = id x :=
        fun x _ => mk_toList x
      rw [List.map_congr_left hid, List.map_id]
  rw [show update_config_file c contents = joinLines ms by rw [hms]; rfl]
  rw [update_config_file, hround]
  congr 1
  rw [hms, List.map_map]
  have hidem : ∀ x ∈ linesOf contents,
      (update_line (conf_line c) ∘ update_line (conf_line c)) x =
        update_line (conf_line c) x :=
    fun x _ => update_line_idem (conf_line c) x
  rw [List.map_congr_left hidem]

theorem update_config_file_idempotent_amended_witness :
    update_config_file ("a") (update_config_file ("a") ("x\ny")) =
      update_config_file ("a") ("x\ny") :=
  update_config_file_idempotent_amended ("a") ("x\ny") (by decide) (by decide)
    (by decide)

theorem select_random_wallpaper_spec_witness :
    select_random_wallpaper [("a"), ("b")] 5 = some ("b") ∧
    ("b") ∈ [("a"), ("b")] :=
  ⟨by decide, (select_random_wallpaper_spec [("a"), ("b")] 5).2 ("b") (by decide)⟩
